import Mathlib

/-!
Verification of the state-synchronization core of the PandasGUI viewer
(`pandasgui/gui.py`): the name-resolution protocol of `show`, the
application store operations (modelled from the specification, since the
store module itself is not part of the examined sources), the theme
switcher, the settings application in `PandasGui.__init__`, and the
module-level `refs` registry of live windows.

Payloads (DataFrame objects) are opaque; Python object identity (`is`)
is modelled by giving each object a numeric identity.
-/

namespace PandasGuiVerif

/-- An opaque payload (a DataFrame object), identified by its object identity. -/
abbrev Obj := Nat

/-- A calling scope: `f_locals.items()`, an ordered mapping name → object. -/
abbrev Scope := List (String × Obj)

/-! ### Python dict model

Python dicts preserve insertion order; assigning to an existing key
updates its value in place, assigning to a fresh key appends. -/

/-- Python `d[k] = v` on an insertion-ordered dict. -/
def dictInsert (d : List (String × Obj)) (k : String) (v : Obj) :
    List (String × Obj) :=
  if d.any (fun p => p.1 == k) then
    d.map (fun p => if p.1 == k then (k, v) else p)
  else
    d ++ [(k, v)]

/-- Python `d.get(k)` on an insertion-ordered dict. -/
def dictLookup (d : List (String × Obj)) (k : String) : Option Obj :=
  (d.find? (fun p => p.1 == k)).map (fun p => p.2)

/-- Python `d.keys()` on an insertion-ordered dict. -/
def dictKeys (d : List (String × Obj)) : List String :=
  d.map (fun p => p.1)

/-! ### Name resolution in `show` (gui.py lines 336-357) -/

/-- The inner scan of `show`:
`df_name = None; for var_name, var_val in callers_local_vars: if var_val is df_object: df_name = var_name`.
Note the loop does not break, so a later match overwrites an earlier one. -/
def scanScope (callers_local_vars : Scope) (df_object : Obj) : Option String :=
  callers_local_vars.foldl
    (fun df_name p => if p.2 == df_object then some p.1 else df_name) none

/-- The synthesized fallback name `f"untitled_{n}"`. -/
def untitledName (n : Nat) : String :=
  "untitled_" ++ toString n

/-- State carried by `show`'s resolution loop.  `dataframes` and
`untitled_number` are the variables of the source; `assigned` is a ghost
trace recording, in order, the (name, payload) pair produced for each
positional argument. -/
structure ResolveState where
  dataframes : List (String × Obj)
  untitled_number : Nat
  assigned : List (String × Obj)
deriving DecidableEq

/-- One iteration of `show`'s resolution loop over a positional argument. -/
def resolveStep (scope : Scope) (st : ResolveState) (df_object : Obj) :
    ResolveState :=
  match scanScope scope df_object with
  | some n =>
      { dataframes := dictInsert st.dataframes n df_object
        untitled_number := st.untitled_number
        assigned := st.assigned ++ [(n, df_object)] }
  | none =>
      { dataframes :=
          dictInsert st.dataframes (untitledName st.untitled_number) df_object
        untitled_number := st.untitled_number + 1
        assigned := st.assigned ++ [(untitledName st.untitled_number, df_object)] }

/-- The whole resolution loop of `show`: `dataframes = {}` and
`untitled_number = 1` initially, then one `resolveStep` per positional
argument. -/
def resolveArgs (scope : Scope) (args : List Obj) : ResolveState :=
  args.foldl (resolveStep scope) ⟨[], 1, []⟩

/-- The `dataframes` dict produced by `show`'s resolution loop. -/
def showDataframes (scope : Scope) (args : List Obj) : List (String × Obj) :=
  (resolveArgs scope args).dataframes

/-- Python `{**d1, **d2}`: entries of `d2` inserted into `d1` in order. -/
def mergeDicts (d1 d2 : List (String × Obj)) : List (String × Obj) :=
  d2.foldl (fun acc p => dictInsert acc p.1 p.2) d1

/-- The final name → payload mapping of `show`: `kwargs = {**kwargs, **dataframes}`. -/
def showKwargs (scope : Scope) (kwargs : List (String × Obj)) (args : List Obj) :
    List (String × Obj) :=
  mergeDicts kwargs (showDataframes scope args)

/-- The duplicate check of `show`:
`any([key in kwargs.keys() for key in dataframes.keys()])`. -/
def showWarnsDuplicate (kwargs dataframes : List (String × Obj)) : Bool :=
  dataframes.any (fun p => kwargs.any (fun q => q.1 == p.1))

/-- Following the spec's words for comparison: the LAST binding in
scope-iteration order whose value is the object (what the code computes),
as opposed to the first one (what the spec prescribes). -/
def lastMatchName (scope : Scope) (obj : Obj) : Option String :=
  (scope.reverse.find? (fun p => p.2 == obj)).map (fun p => p.1)

/-- Recursive characterisation of the per-argument trace of the
resolution loop: with the untitled counter currently at `u`, each
argument receives either its scope name or the next untitled name.
Proven equal to the `assigned` ghost trace of `resolveArgs` below. -/
def assignedOf (scope : Scope) (u : Nat) : List Obj → List (String × Obj)
  | [] => []
  | obj :: rest =>
    match scanScope scope obj with
    | some n => (n, obj) :: assignedOf scope u rest
    | none => (untitledName u, obj) :: assignedOf scope (u + 1) rest

/-- The names synthesized (rather than resolved from the scope) among a
trace of (name, payload) pairs: exactly those whose payload has no
identity match in the scope. -/
def synthesizedNames (scope : Scope) (l : List (String × Obj)) : List String :=
  (l.filter (fun p => (scanScope scope p.2).isNone)).map (fun p => p.1)

/-! ### The Application Store

The store module (`PandasGuiStore` / `PandasGuiDataFrameStore`) is not
among the examined sources; it is modelled from the specification
(spec sections 3 and 4.2). -/

/-- Modelled from the spec: a Dataset Entry (`PandasGuiDataFrameStore`),
reduced to the fields the claims speak about — the tabular payload and
the ordered history of recorded mutations (empty on creation). -/
structure DFEntry where
  payload : Obj
  history : List String
deriving DecidableEq

/-- Modelled from the spec: the Application Store (`PandasGuiStore`) —
an ordered mapping name → Dataset Entry (list order = display order)
plus the currently selected name (`none` when empty). -/
structure Store where
  entries : List (String × DFEntry)
  selected : Option String
deriving DecidableEq

/-- The display order of names in a store. -/
def storeNames (s : Store) : List String :=
  s.entries.map (fun q => q.1)

/-- Lookup of an entry by name. -/
def storeLookup (s : Store) (n : String) : Option DFEntry :=
  (s.entries.find? (fun q => q.1 == n)).map (fun q => q.2)

/-- Modelled from the spec: `add(payload, name)` — on a name collision
the existing entry is replaced (history cleared) in place; otherwise the
new entry is appended; `selected_name` is set to the new entry only if
the store was previously empty. -/
def addDF (s : Store) (p : Obj) (n : String) : Store :=
  if s.entries.any (fun q => q.1 == n) then
    { s with entries := s.entries.map (fun q => if q.1 == n then (n, ⟨p, []⟩) else q) }
  else
    { entries := s.entries ++ [(n, ⟨p, []⟩)]
      selected := if s.entries.isEmpty then some n else s.selected }

/-- Modelled from the spec: `remove(name)` — `NotFoundError` when the
name is absent; otherwise the entry is removed, and if it was selected,
the selection moves to the entry immediately preceding it in display
order (or to none when there is no preceding entry). -/
def removeDF (s : Store) (n : String) : Except String Store :=
  match s.entries.findIdx? (fun q => q.1 == n) with
  | none => .error "NotFoundError"
  | some i =>
      .ok { entries := s.entries.eraseIdx i
            selected :=
              if s.selected = some n then
                if i = 0 then none else (s.entries[i-1]?).map (fun q => q.1)
              else s.selected }

/-- Modelled from the spec: `select(name)` — `NotFoundError` when the
name is absent; otherwise sets `selected_name`. -/
def selectDF (s : Store) (n : String) : Except String Store :=
  if s.entries.any (fun q => q.1 == n) then
    .ok { s with selected := some n }
  else
    .error "NotFoundError"

/-- The body of `PandasGui.refresh` (gui.py lines 315-329) for one
matched name: `self.store.remove_dataframe(var_name)` followed by
`self.store.add_dataframe(var_val, name=var_name)`.  The error branch is
unreachable in the source, whose loop only fires for names present in
the store. -/
def refreshName (s : Store) (n : String) (p : Obj) : Store :=
  match removeDF s n with
  | .ok s2 => addDF s2 p n
  | .error _ => s

/-- One operation of the Application Store, for invariant checking. -/
inductive StoreOp where
  | add (p : Obj) (n : String)
  | remove (n : String)
  | select (n : String)
deriving DecidableEq

/-- Apply one operation; an operation that raises (`NotFoundError`)
leaves the store exactly as it was (preconditions are validated before
any mutation). -/
def applyOp (s : Store) (op : StoreOp) : Store :=
  match op with
  | .add p n => addDF s p n
  | .remove n =>
      match removeDF s n with
      | .ok s2 => s2
      | .error _ => s
  | .select n =>
      match selectDF s n with
      | .ok s2 => s2
      | .error _ => s

/-- The empty store. -/
def emptyStore : Store := ⟨[], none⟩

/-- Run a sequence of store operations from the empty store. -/
def runOps (ops : List StoreOp) : Store :=
  ops.foldl applyOp emptyStore

/-- The §3 invariant: `selected_name`, if not none, is a key of `entries`. -/
def StoreInv (s : Store) : Prop :=
  ∀ n, s.selected = some n → n ∈ storeNames s

/-! ### Settings and window construction (gui.py lines 41-82) -/

/-- Modelled from the spec: one caller-supplied settings item, keyed by
the documented option names (theme, style, block). -/
inductive SettingKV where
  | theme (v : String)
  | style (v : String)
  | block (v : Bool)
deriving DecidableEq

/-- Modelled from the spec: the SettingsStore of one Application Store,
reduced to the documented options theme, style and block. -/
structure SettingsState where
  theme : String
  style : String
  block : Bool
deriving DecidableEq

/-- One iteration of the settings loop of `PandasGui.__init__`:
`self.store.settings[key].value = value`. -/
def setSetting (st : SettingsState) (kv : SettingKV) : SettingsState :=
  match kv with
  | .theme v => { st with theme := v }
  | .style v => { st with style := v }
  | .block v => { st with block := v }

/-- The settings loop of `PandasGui.__init__` over the caller's dict. -/
def applySettings (st : SettingsState) (settings : List SettingKV) : SettingsState :=
  settings.foldl setSetting st

/-- The observable actions of `PandasGui.__init__`, in program order. -/
inductive InitAction where
  | appendRef
  | applySettingsAct
  | setStyleAct (style : String)
  | initUIAct
  | addDataframeAct (n : String) (p : Obj)
  | selectFirstAct
  | showWindowAct
  | execEventLoopAct
deriving DecidableEq

/-- `PandasGui.__init__` (gui.py lines 41-82): appends the window to
`refs`, applies the caller-supplied settings over the defaults, sets the
style, builds the UI, adds the keyword dataframes, selects the first
navigator item, shows the window, and finally enters the Qt event loop
(`self.app.exec_()`) exactly when the block setting is true. -/
def pandasGuiInit (defaults : SettingsState) (settings : List SettingKV)
    (kwargs : List (String × Obj)) : SettingsState × List InitAction :=
  let st := applySettings defaults settings
  (st,
    [InitAction.appendRef, InitAction.applySettingsAct,
     InitAction.setStyleAct st.style, InitAction.initUIAct]
    ++ kwargs.map (fun p => InitAction.addDataframeAct p.1 p.2)
    ++ [InitAction.selectFirstAct, InitAction.showWindowAct]
    ++ (if st.block then [InitAction.execEventLoopAct] else []))

/-! ### The module-level `refs` registry (gui.py lines 37, 57, 310-312) -/

/-- One lifecycle event touching the module-level `refs` list, tagged by
the identity of the window instance involved. -/
inductive RefEvent where
  | construct (i : Nat)
  | closeEvt (i : Nat)
deriving DecidableEq

/-- Effect of one lifecycle event on `refs`: construction runs
`refs.append(self)` (gui.py line 57); the close event runs
`refs.remove(self)` (line 311), deleting the first occurrence. -/
def refStep (refs : List Nat) (e : RefEvent) : List Nat :=
  match e with
  | .construct i => refs ++ [i]
  | .closeEvt i => refs.erase i

/-- The `refs` list after a sequence of lifecycle events, starting from
the empty module-level list. -/
def runRefs (es : List RefEvent) : List Nat :=
  es.foldl refStep []

/-- Whether an event concerns the given instance. -/
def touches (i : Nat) (e : RefEvent) : Bool :=
  match e with
  | .construct j => j == i
  | .closeEvt j => j == i

/-- Contribution of one event to the number of occurrences of instance
`i` in `refs` (with the same truncation behaviour as `List.erase`). -/
def netStep (i : Nat) (c : Nat) (e : RefEvent) : Nat :=
  match e with
  | .construct j => if j == i then c + 1 else c
  | .closeEvt j => if j == i then c - 1 else c

/-! ### The theme switcher (gui.py lines 200-209) -/

/-- Modelled from the spec: the dark stylesheet supplied by the qstylish
theming collaborator (out-of-scope module), as an opaque marker. -/
def qstylishDark : String := "<qstylish.dark()>"

/-- Modelled from the spec: the light stylesheet supplied by the
qstylish theming collaborator, as an opaque marker. -/
def qstylishLight : String := "<qstylish.light()>"

/-- The window state touched by `PandasGui.set_theme`: the Qt stylesheet
and the stored theme setting value. -/
structure ThemeState where
  styleSheet : String
  themeValue : String
deriving DecidableEq

/-- `PandasGui.set_theme` (gui.py lines 200-209): an if/elif chain over
the three known theme names, with no else branch. -/
def set_theme (st : ThemeState) (name : String) : ThemeState :=
  if name = "classic" then { styleSheet := "", themeValue := "classic" }
  else if name = "dark" then { styleSheet := qstylishDark, themeValue := "dark" }
  else if name = "light" then { styleSheet := qstylishLight, themeValue := "light" }
  else st

end PandasGuiVerif

namespace PandasGuiVerif

/-! ### Lemmas about the scope scan -/

theorem scanScope_foldl (scope : Scope) (obj : Obj) :
    ∀ init : Option String,
      scope.foldl (fun acc p => if p.2 == obj then some p.1 else acc) init =
        match scope.reverse.find? (fun p => p.2 == obj) with
        | some p => some p.1
        | none => init := by
  induction scope with
  | nil => intro init; simp
  | cons x xs ih =>
      intro init
      simp only [List.foldl_cons, List.reverse_cons, List.find?_append]
      rw [ih]
      cases h : xs.reverse.find? (fun p => p.2 == obj) with
      | some p => simp
      | none =>
          simp only [Option.orElse_none, Option.none_orElse]
          by_cases hx : x.2 == obj <;> simp [List.find?, hx]

theorem scanScope_eq_lastMatchName (scope : Scope) (obj : Obj) :
    scanScope scope obj = lastMatchName scope obj := by
  rw [scanScope, scanScope_foldl, lastMatchName]
  cases h : scope.reverse.find? (fun p => p.2 == obj) <;> simp

/-! ### Lemmas about the dict model -/

theorem dictLookup_dictInsert_self (d : List (String × Obj)) (k : String) (v : Obj) :
    dictLookup (dictInsert d k v) k = some v := by
  rw [dictInsert]
  by_cases hany : d.any (fun p => p.1 == k)
  · simp only [hany, if_true, dictLookup, List.find?_map]
    have hfun : ((fun p : String × Obj => p.1 == k) ∘
        fun p : String × Obj => if p.1 == k then (k, v) else p) =
        fun p : String × Obj => p.1 == k := by
      funext p
      by_cases hp : p.1 = k <;> simp [hp]
    rw [hfun]
    rcases hfind : d.find? (fun p : String × Obj => p.1 == k) with _ | p
    · rw [List.find?_eq_none] at hfind
      rw [List.any_eq_true] at hany
      obtain ⟨p, hp, hpk⟩ := hany
      exact absurd hpk (hfind p hp)
    · have hp0 := List.find?_some hfind
      have hp : p.1 = k := beq_iff_eq.mp hp0
      simp [hp]
  · simp only [hany, if_false, dictLookup, List.find?_append]
    have hnone : d.find? (fun p : String × Obj => p.1 == k) = none := by
      rw [List.find?_eq_none]
      intro p hp
      rw [List.any_eq_true] at hany
      exact fun hpk => hany ⟨p, hp, hpk⟩
    simp [hnone]

theorem dictLookup_dictInsert_ne (d : List (String × Obj)) (k k' : String) (v : Obj)
    (h : k' ≠ k) : dictLookup (dictInsert d k v) k' = dictLookup d k' := by
  rw [dictInsert]
  by_cases hany : d.any (fun p => p.1 == k)
  · simp only [hany, if_true, dictLookup, List.find?_map]
    have hfun : ((fun p : String × Obj => p.1 == k') ∘
        fun p : String × Obj => if p.1 == k then (k, v) else p) =
        fun p : String × Obj => p.1 == k' := by
      funext p
      by_cases hp : p.1 = k
      · simp [hp, Ne.symm h]
      · simp [hp]
    rw [hfun]
    rcases hfind : d.find? (fun p : String × Obj => p.1 == k') with _ | p
    · simp
    · have hp0 := List.find?_some hfind
      have hp : p.1 = k' := beq_iff_eq.mp hp0
      have hpk : ¬ p.1 = k := by rw [hp]; exact h
      simp [hpk]
  · have hf : (d.any fun p => p.1 == k) = false := Bool.eq_false_iff.mpr hany
    rw [hf]
    simp only [Bool.false_eq_true, if_false, dictLookup, List.find?_append]
    have hkk : ¬ (k == k') = true := by simp [Ne.symm h]
    rcases hfind : d.find? (fun p : String × Obj => p.1 == k') with _ | p
    · simp [hfind, List.find?, hkk]
    · simp [hfind]

theorem dictKeys_dictInsert (d : List (String × Obj)) (k : String) (v : Obj) :
    dictKeys (dictInsert d k v) =
      if d.any (fun p => p.1 == k) then dictKeys d else dictKeys d ++ [k] := by
  rw [dictInsert]
  by_cases hany : d.any (fun p => p.1 == k)
  · simp only [hany, if_true, dictKeys, List.map_map]
    congr 1
    funext p
    by_cases hp : p.1 = k <;> simp [hp]
  · simp [hany, dictKeys]

theorem dictKeys_nodup_dictInsert (d : List (String × Obj)) (k : String) (v : Obj)
    (h : (dictKeys d).Nodup) : (dictKeys (dictInsert d k v)).Nodup := by
  rw [dictKeys_dictInsert]
  by_cases hany : d.any (fun p => p.1 == k)
  · simpa [hany]
  · have hk : k ∉ dictKeys d := by
      rw [dictKeys, List.mem_map]
      rintro ⟨p, hp, hpk⟩
      rw [List.any_eq_true] at hany
      exact hany ⟨p, hp, by simp [hpk]⟩
    have hf : (d.any fun p => p.1 == k) = false := Bool.eq_false_iff.mpr hany
    rw [hf]
    simp only [Bool.false_eq_true, if_false, List.nodup_append]
    refine ⟨h, List.nodup_singleton k, ?_⟩
    intro a ha hak
    rw [List.mem_singleton] at hak
    exact hk (hak ▸ ha)

theorem mem_dictKeys_of_lookup_isSome (d : List (String × Obj)) (k : String)
    (h : (dictLookup d k).isSome) : k ∈ dictKeys d := by
  rw [dictLookup] at h
  rcases hfind : d.find? (fun p : String × Obj => p.1 == k) with _ | p
  · rw [hfind] at h; simp at h
  · have hp := List.find?_some hfind
    have hmem := List.mem_of_find?_eq_some hfind
    rw [dictKeys, List.mem_map]
    exact ⟨p, hmem, beq_iff_eq.mp hp⟩

/-- Looking a key up in `{**d1, **d2}`: the LAST entry of `d2` with that
key wins; if `d2` has none, the lookup falls through to `d1`. -/
theorem mergeDicts_lookup (l : List (String × Obj)) :
    ∀ (d : List (String × Obj)) (n : String),
      dictLookup (mergeDicts d l) n =
        match l.reverse.find? (fun p => p.1 == n) with
        | some p => some p.2
        | none => dictLookup d n := by
  induction l with
  | nil => intro d n; simp [mergeDicts]
  | cons p rest ih =>
      intro d n
      have hstep : mergeDicts d (p :: rest) = mergeDicts (dictInsert d p.1 p.2) rest := by
        simp [mergeDicts]
      rw [hstep, ih]
      simp only [List.reverse_cons, List.find?_append]
      cases hrest : rest.reverse.find? (fun q : String × Obj => q.1 == n) with
      | some q => simp
      | none =>
          simp only [Option.orElse_none, Option.none_orElse]
          by_cases hp : p.1 == n
          · have : n = p.1 := (beq_iff_eq.mp hp).symm
            subst this
            simp [List.find?, hp, dictLookup_dictInsert_self]
          · have hne : n ≠ p.1 := fun hc => hp (by simp [hc])
            simp [List.find?, hp, dictLookup_dictInsert_ne d p.1 n p.2 hne]

/-- With no duplicate keys, searching an assoc list from the back finds
the same entry as searching from the front. -/
theorem find?_key_reverse_of_nodup (d : List (String × Obj)) (n : String)
    (h : (dictKeys d).Nodup) :
    d.reverse.find? (fun p => p.1 == n) = d.find? (fun p => p.1 == n) := by
  induction d with
  | nil => simp
  | cons e rest ih =>
      rw [dictKeys, List.map_cons, List.nodup_cons] at h
      obtain ⟨he, hrest⟩ := h
      rw [List.reverse_cons, List.find?_append]
      by_cases hek : e.1 = n
      · have hnone : rest.find? (fun p : String × Obj => p.1 == n) = none := by
          rw [List.find?_eq_none]
          intro p hp hpk
          have hpn : p.1 = n := beq_iff_eq.mp hpk
          have : e.1 ∈ List.map (fun q : String × Obj => q.1) rest := by
            rw [hek, ← hpn]
            exact List.mem_map_of_mem (fun q : String × Obj => q.1) hp
          exact he this
        have hnone' : rest.reverse.find? (fun p : String × Obj => p.1 == n) = none := by
          rw [List.find?_eq_none] at hnone ⊢
          intro p hp
          exact hnone p (List.mem_reverse.mp hp)
        simp [hnone', hnone, List.find?, hek]
      · have hekb : ¬ (e.1 == n) = true := by simp [hek]
        rw [ih hrest]
        cases hfind : rest.find? (fun p : String × Obj => p.1 == n) with
        | some q => simp [hekb, hfind]
        | none => simp [List.find?, hekb, hfind]

theorem mergeDicts_lookup_right (d1 d2 : List (String × Obj)) (n : String)
    (hnd : (dictKeys d2).Nodup) (h : (dictLookup d2 n).isSome) :
    dictLookup (mergeDicts d1 d2) n = dictLookup d2 n := by
  rw [mergeDicts_lookup, find?_key_reverse_of_nodup d2 n hnd]
  rcases hfind : d2.find? (fun p : String × Obj => p.1 == n) with _ | p
  · rw [dictLookup, hfind] at h
    simp at h
  · simp [dictLookup, hfind]

/-- The duplicate-name warning fires whenever an inferred key is also a
keyword key. -/
theorem showWarnsDuplicate_of_mem (kwargs dataframes : List (String × Obj))
    (n : String) (hk : n ∈ dictKeys kwargs) (hd : n ∈ dictKeys dataframes) :
    showWarnsDuplicate kwargs dataframes = true := by
  rw [dictKeys, List.mem_map] at hk hd
  obtain ⟨p, hp, hpn⟩ := hd
  obtain ⟨q, hq, hqn⟩ := hk
  rw [showWarnsDuplicate, List.any_eq_true]
  exact ⟨p, hp, by rw [List.any_eq_true]; exact ⟨q, hq, by simp [hqn, hpn]⟩⟩

/-- Keys of the `dataframes` dict built by the resolution loop never repeat. -/
theorem resolveArgs_dataframes_nodup (scope : Scope) (args : List Obj) :
    (dictKeys (resolveArgs scope args).dataframes).Nodup := by
  rw [resolveArgs]
  have : ∀ (l : List Obj) (st : ResolveState), (dictKeys st.dataframes).Nodup →
      (dictKeys (l.foldl (resolveStep scope) st).dataframes).Nodup := by
    intro l
    induction l with
    | nil => intro st h; simpa
    | cons o rest ih =>
        intro st h
        rw [List.foldl_cons]
        apply ih
        rw [resolveStep]
        cases scanScope scope o with
        | some m => exact dictKeys_nodup_dictInsert _ _ _ h
        | none => exact dictKeys_nodup_dictInsert _ _ _ h
  exact this args ⟨[], 1, []⟩ (by simp [dictKeys])

/-- C1, as stated, is refuted: with scope `[("a", 1)]`, keyword argument
`a = 99` and positional payload `1` (whose inferred name `"a"` collides
with the keyword name), the surviving binding of `"a"` in the merged
mapping `{**kwargs, **dataframes}` is the INFERRED payload `1`, not the
explicitly supplied keyword payload `99`. -/
theorem C1_counterexample :
    dictLookup (showKwargs [("a", 1)] [("a", 99)] [1]) "a" = some 1 ∧
      (1 : Obj) ≠ 99 := by
  exact ⟨rfl, by decide⟩

/-- C1 amended: when an inferred name for a positional payload collides
with a name explicitly supplied as a keyword argument, the INFERRED
entry wins (a Python merge `{**kwargs, **dataframes}` lets the second
dict override the first): the final mapping binds every inferred name to
its inferred payload, the explicit keyword entry is dropped, a warning
is logged (the `any` check is true), and no exception is raised. -/
theorem C1_amended (scope : Scope) (kwargs : List (String × Obj)) (args : List Obj)
    (n : String) (h : (dictLookup (showDataframes scope args) n).isSome) :
    dictLookup (showKwargs scope kwargs args) n =
        dictLookup (showDataframes scope args) n ∧
      (n ∈ dictKeys kwargs →
        showWarnsDuplicate kwargs (showDataframes scope args) = true) := by
  refine ⟨?_, ?_⟩
  · exact mergeDicts_lookup_right kwargs _ n (resolveArgs_dataframes_nodup scope args) h
  · intro hk
    exact showWarnsDuplicate_of_mem _ _ n hk (mem_dictKeys_of_lookup_isSome _ n h)

/-- Witness for C1_amended at scope `[("a", 1)]`, kwargs `{a: 99}`,
positional payload `1`. -/
theorem C1_amended_witness :
    dictLookup (showKwargs [("a", 1)] [("a", 99)] [1]) "a" =
        dictLookup (showDataframes [("a", 1)] [1]) "a" ∧
      showWarnsDuplicate [("a", 99)] (showDataframes [("a", 1)] [1]) = true := by
  have h := C1_amended [("a", 1)] [("a", 99)] [1] "a" (by decide)
  exact ⟨h.1, h.2 (by decide)⟩

/-- C2, as stated, is refuted: with scope `[("x", 5), ("y", 5)]` (two
variables bound to the same object, iteration order `x` then `y`) the
payload `5` is named `"y"`, the last match, not the first match `"x"`. -/
theorem C2_counterexample :
    (resolveArgs [("x", 5), ("y", 5)] [5]).dataframes = [("y", 5)] ∧
      ("y" : String) ≠ "x" := by
  constructor
  · rfl
  · decide

/-- C2 amended: the name chosen for a payload with an identity match in
the calling scope is the LAST matching variable name in scope-iteration
order (the source loop does not break, so later matches overwrite
earlier ones). -/
theorem C2_amended (scope : Scope) (obj : Obj) :
    scanScope scope obj = lastMatchName scope obj ∧
      ∀ n, scanScope scope obj = some n →
        (resolveArgs scope [obj]).dataframes = [(n, obj)] := by
  refine ⟨scanScope_eq_lastMatchName scope obj, ?_⟩
  intro n hn
  simp [resolveArgs, resolveStep, hn, dictInsert]

/-- Witness for C2_amended at scope `[("x", 5), ("y", 5)]`, payload `5`:
the chosen name is the last match `"y"`. -/
theorem C2_amended_witness :
    scanScope [("x", 5), ("y", 5)] 5 = lastMatchName [("x", 5), ("y", 5)] 5 ∧
      (resolveArgs [("x", 5), ("y", 5)] [5]).dataframes = [("y", 5)] :=
  ⟨(C2_amended [("x", 5), ("y", 5)] 5).1,
   (C2_amended [("x", 5), ("y", 5)] 5).2 "y" rfl⟩

/-! ### The resolution loop against its trace characterisation -/

theorem resolve_foldl_assigned (scope : Scope) :
    ∀ (args : List Obj) (st : ResolveState),
      (args.foldl (resolveStep scope) st).assigned =
        st.assigned ++ assignedOf scope st.untitled_number args := by
  intro args
  induction args with
  | nil => intro st; simp [assignedOf]
  | cons obj rest ih =>
      intro st
      rw [List.foldl_cons, ih, resolveStep, assignedOf]
      cases hscan : scanScope scope obj with
      | some n => simp
      | none => simp

theorem resolve_foldl_dataframes (scope : Scope) :
    ∀ (args : List Obj) (st : ResolveState),
      (args.foldl (resolveStep scope) st).dataframes =
        mergeDicts st.dataframes (assignedOf scope st.untitled_number args) := by
  intro args
  induction args with
  | nil => intro st; simp [assignedOf, mergeDicts]
  | cons obj rest ih =>
      intro st
      rw [List.foldl_cons, ih, resolveStep, assignedOf]
      cases hscan : scanScope scope obj with
      | some n => simp [mergeDicts]
      | none => simp [mergeDicts]

theorem resolveArgs_assigned (scope : Scope) (args : List Obj) :
    (resolveArgs scope args).assigned = assignedOf scope 1 args := by
  rw [resolveArgs, resolve_foldl_assigned]
  simp

theorem showDataframes_eq (scope : Scope) (args : List Obj) :
    showDataframes scope args = mergeDicts [] (assignedOf scope 1 args) := by
  rw [showDataframes, resolveArgs, resolve_foldl_dataframes]

theorem assignedOf_length (scope : Scope) :
    ∀ (args : List Obj) (u : Nat), (assignedOf scope u args).length = args.length := by
  intro args
  induction args with
  | nil => intro u; simp [assignedOf]
  | cons obj rest ih =>
      intro u
      rw [assignedOf]
      cases scanScope scope obj <;> simp [ih]

theorem assignedOf_mem (scope : Scope) :
    ∀ (args : List Obj) (u : Nat) (p : String × Obj), p ∈ assignedOf scope u args →
      p.2 ∈ args ∧ (scanScope scope p.2 = some p.1 ∨
        (scanScope scope p.2 = none ∧ ∃ k, u ≤ k ∧ p.1 = untitledName k)) := by
  intro args
  induction args with
  | nil => intro u p hp; simp [assignedOf] at hp
  | cons obj rest ih =>
      intro u p hp
      rw [assignedOf] at hp
      cases hscan : scanScope scope obj with
      | some n =>
          rw [hscan] at hp
          rcases List.mem_cons.mp hp with heq | hmem
          · subst heq
            exact ⟨List.mem_cons_self _ _, Or.inl hscan⟩
          · obtain ⟨h1, h2⟩ := ih u p hmem
            exact ⟨List.mem_cons_of_mem _ h1, h2⟩
      | none =>
          rw [hscan] at hp
          rcases List.mem_cons.mp hp with heq | hmem
          · subst heq
            exact ⟨List.mem_cons_self _ _, Or.inr ⟨hscan, u, Nat.le_refl u, rfl⟩⟩
          · obtain ⟨h1, h2⟩ := ih (u + 1) p hmem
            refine ⟨List.mem_cons_of_mem _ h1, ?_⟩
            rcases h2 with h2 | ⟨hn, k, hk, hname⟩
            · exact Or.inl h2
            · exact Or.inr ⟨hn, k, Nat.le_of_succ_le hk, hname⟩

theorem assignedOf_getD (scope : Scope) :
    ∀ (args : List Obj) (u i : Nat), i < args.length →
      (scanScope scope (args.getD i 0)).isNone = true →
      (assignedOf scope u args).getD i ("", 0) =
        (untitledName
          (u + (args.take i).countP (fun o => (scanScope scope o).isNone)),
         args.getD i 0) := by
  intro args
  induction args with
  | nil => intro u i hi; simp at hi
  | cons obj rest ih =>
      intro u i hi hun
      cases i with
      | zero =>
          simp only [List.getD_cons_zero] at hun ⊢
          rw [assignedOf]
          cases hscan : scanScope scope obj with
          | some n => rw [hscan] at hun; simp at hun
          | none => simp
      | succ j =>
          rw [assignedOf]
          have hj : j < rest.length := Nat.lt_of_succ_lt_succ hi
          have hun' : (scanScope scope (rest.getD j 0)).isNone = true := by
            simpa using hun
          cases hscan : scanScope scope obj with
          | some n =>
              have := ih u j hj hun'
              simpa [hscan, List.take_succ_cons] using this
          | none =>
              have := ih (u + 1) j hj hun'
              have harith :
                  u + 1 + (rest.take j).countP (fun o => (scanScope scope o).isNone) =
                  u + ((obj :: rest).take (j + 1)).countP
                    (fun o => (scanScope scope o).isNone) := by
                simp [List.take_succ_cons, List.countP_cons, hscan]
                omega
              simpa [harith] using this

theorem synthesizedNames_take (scope : Scope) :
    ∀ (args : List Obj) (u i : Nat),
      synthesizedNames scope ((assignedOf scope u args).take i) =
        (List.range' u
          ((args.take i).countP (fun o => (scanScope scope o).isNone))).map
          untitledName := by
  intro args
  induction args with
  | nil => intro u i; simp [assignedOf, synthesizedNames]
  | cons obj rest ih =>
      intro u i
      cases i with
      | zero => simp [synthesizedNames]
      | succ j =>
          rw [assignedOf]
          cases hscan : scanScope scope obj with
          | some n =>
              have := ih u j
              simp only [List.take_succ_cons, List.countP_cons, hscan]
              simpa [synthesizedNames, hscan] using this
          | none =>
              have := ih (u + 1) j
              simp only [List.take_succ_cons, List.countP_cons, hscan]
              simp only [synthesizedNames, List.filter_cons, hscan] at this ⊢
              simp only [Option.isNone_none, if_true]
              rw [List.map_cons]
              have hr : List.range' u
                  ((rest.take j).countP (fun o => (scanScope scope o).isNone) + 1) =
                  u :: List.range' (u + 1)
                    ((rest.take j).countP (fun o => (scanScope scope o).isNone)) := by
                rw [List.range'_succ]
              rw [hr, List.map_cons, this]

theorem assignedOf_mem_of_mem (scope : Scope) (obj : Obj) (n : String)
    (hmatch : scanScope scope obj = some n) :
    ∀ (args : List Obj) (u : Nat), obj ∈ args → (n, obj) ∈ assignedOf scope u args := by
  intro args
  induction args with
  | nil => intro u h; simp at h
  | cons o rest ih =>
      intro u h
      rw [assignedOf]
      rcases List.mem_cons.mp h with heq | hmem
      · subst heq
        rw [hmatch]
        exact List.mem_cons_self _ _
      · cases hscan : scanScope scope o with
        | some m => exact List.mem_cons_of_mem _ (ih u hmem)
        | none => exact List.mem_cons_of_mem _ (ih (u + 1) hmem)

theorem scanScope_some_mem (scope : Scope) (obj : Obj) (n : String)
    (h : scanScope scope obj = some n) : n ∈ scope.map Prod.fst := by
  rw [scanScope_eq_lastMatchName, lastMatchName] at h
  rcases hfind : scope.reverse.find? (fun p => p.2 == obj) with _ | p
  · rw [hfind] at h; simp at h
  · rw [hfind] at h
    have hp1 : p.1 = n := by simpa using h
    have hmem := List.mem_of_find?_eq_some hfind
    rw [List.mem_reverse] at hmem
    exact hp1 ▸ List.mem_map_of_mem Prod.fst hmem

theorem mem_dictInsert (d : List (String × Obj)) (k : String) (v : Obj)
    (p : String × Obj) (h : p ∈ dictInsert d k v) : p ∈ d ∨ p = (k, v) := by
  rw [dictInsert] at h
  by_cases hany : d.any (fun q => q.1 == k)
  · rw [if_pos hany, List.mem_map] at h
    obtain ⟨q, hq, hfq⟩ := h
    by_cases hqk : q.1 = k
    · right
      rw [← hfq]
      simp [hqk]
    · left
      rw [← hfq]
      simpa [hqk] using hq
  · rw [if_neg hany] at h
    rcases List.mem_append.mp h with h1 | h2
    · exact Or.inl h1
    · exact Or.inr (by simpa using h2)

theorem mem_dictKeys_dictInsert (d : List (String × Obj)) (k : String) (v : Obj)
    (n : String) : n ∈ dictKeys (dictInsert d k v) ↔ n ∈ dictKeys d ∨ n = k := by
  rw [dictKeys_dictInsert]
  by_cases hany : d.any (fun q => q.1 == k)
  · rw [if_pos hany]
    constructor
    · exact Or.inl
    · rintro (h | rfl)
      · exact h
      · rw [List.any_eq_true] at hany
        obtain ⟨q, hq, hqk⟩ := hany
        have hq1 : q.1 = n := by simpa using hqk
        exact hq1 ▸ List.mem_map_of_mem (fun p : String × Obj => p.1) hq
  · rw [if_neg hany, List.mem_append, List.mem_singleton]

theorem mem_dictKeys_mergeDicts (l : List (String × Obj)) :
    ∀ (d : List (String × Obj)) (n : String),
      n ∈ dictKeys (mergeDicts d l) ↔ n ∈ dictKeys d ∨ n ∈ dictKeys l := by
  induction l with
  | nil => intro d n; simp [mergeDicts, dictKeys]
  | cons p rest ih =>
      intro d n
      have hstep : mergeDicts d (p :: rest) = mergeDicts (dictInsert d p.1 p.2) rest := by
        simp [mergeDicts]
      rw [hstep, ih, mem_dictKeys_dictInsert]
      simp only [dictKeys, List.map_cons, List.mem_cons]
      tauto

theorem mergeDicts_mem (l : List (String × Obj)) :
    ∀ (d : List (String × Obj)) (p : String × Obj),
      p ∈ mergeDicts d l → p ∈ d ∨ p ∈ l := by
  induction l with
  | nil => intro d p h; exact Or.inl (by simpa [mergeDicts] using h)
  | cons q rest ih =>
      intro d p h
      have hstep : mergeDicts d (q :: rest) = mergeDicts (dictInsert d q.1 q.2) rest := by
        simp [mergeDicts]
      rw [hstep] at h
      rcases ih _ p h with h1 | h2
      · rcases mem_dictInsert _ _ _ _ h1 with hd | heq
        · exact Or.inl hd
        · right
          rw [heq]
          exact List.mem_cons_self _ _
      · exact Or.inr (List.mem_cons_of_mem _ h2)

/-- A string shorter than the `"untitled_"` stem cannot be a synthesized
name. -/
theorem untitledName_ne_short (s : String) (h : s.length < 9) :
    ∀ k : Nat, s ≠ untitledName k := by
  intro k heq
  have hlen : s.length = (untitledName k).length := by rw [heq]
  rw [untitledName, String.length_append] at hlen
  have h9 : ("untitled_" : String).length = 9 := rfl
  omega

/-- C5 (confirmed): in one call to `show`, an unnamed payload with no
identity match in scope is synthesized the name `untitled_{c+1}` where
`c` is the number of unmatched payloads processed before it; the
synthesized names used before it are exactly `untitled_1 .. untitled_c`,
and `c + 1` is the smallest positive integer whose untitled index is not
already used as a synthesized name in this call (so the first such
payload is `untitled_1` and the second `untitled_2`). -/
theorem C5_untitled_numbering (scope : Scope) (args : List Obj) (i : Nat)
    (hi : i < args.length)
    (hun : (scanScope scope (args.getD i 0)).isNone = true) :
    ((resolveArgs scope args).assigned.getD i ("", 0)).1 =
        untitledName
          ((args.take i).countP (fun o => (scanScope scope o).isNone) + 1) ∧
      synthesizedNames scope ((resolveArgs scope args).assigned.take i) =
        (List.range' 1
          ((args.take i).countP (fun o => (scanScope scope o).isNone))).map
          untitledName ∧
      ((args.take i).countP (fun o => (scanScope scope o).isNone) + 1) ∉
        List.range' 1 ((args.take i).countP (fun o => (scanScope scope o).isNone)) ∧
      ∀ m, 0 < m →
        m < (args.take i).countP (fun o => (scanScope scope o).isNone) + 1 →
        m ∈ List.range' 1
          ((args.take i).countP (fun o => (scanScope scope o).isNone)) := by
  rw [resolveArgs_assigned]
  refine ⟨?_, ?_, ?_, ?_⟩
  · rw [assignedOf_getD scope args 1 i hi hun]
    simp [Nat.add_comm]
  · exact synthesizedNames_take scope args 1 i
  · rw [List.mem_range']
    rintro ⟨j, hj, hmj⟩
    omega
  · intro m hm hmc
    rw [List.mem_range']
    exact ⟨m - 1, by omega, by omega⟩

/-- Witness for C5 at scope `[]`, args `[7, 8]`, second payload: named
`"untitled_2"`. -/
theorem C5_untitled_numbering_witness :
    ((resolveArgs [] [7, 8]).assigned.getD 1 ("", 0)).1 =
        untitledName
          (([7, 8].take 1).countP (fun o => (scanScope [] o).isNone) + 1) ∧
      ((resolveArgs [] [7, 8]).assigned.getD 1 ("", 0)).1 = "untitled_2" := by
  refine ⟨(C5_untitled_numbering [] [7, 8] 1 (by decide) (by decide)).1, ?_⟩
  rfl

/-- C6 (confirmed): name resolution is total and has no failure branch.
Every positional payload is assigned exactly one name (the trace is as
long as the argument list), each assigned name is either a variable name
of the calling scope or a synthesized `untitled_{k}`, and the produced
mapping has exactly one entry per distinct resolved name (its keys never
repeat and are exactly the assigned names). -/
theorem C6_resolution_total (scope : Scope) (args : List Obj) :
    (resolveArgs scope args).assigned.length = args.length ∧
      (∀ p ∈ (resolveArgs scope args).assigned,
        p.1 ∈ scope.map Prod.fst ∨ ∃ k, 1 ≤ k ∧ p.1 = untitledName k) ∧
      (dictKeys (showDataframes scope args)).Nodup ∧
      (∀ n, n ∈ dictKeys (showDataframes scope args) ↔
        n ∈ (resolveArgs scope args).assigned.map Prod.fst) := by
  refine ⟨?_, ?_, resolveArgs_dataframes_nodup scope args, ?_⟩
  · rw [resolveArgs_assigned]
    exact assignedOf_length scope args 1
  · intro p hp
    rw [resolveArgs_assigned] at hp
    obtain ⟨-, h2⟩ := assignedOf_mem scope args 1 p hp
    rcases h2 with h | ⟨-, k, hk, hname⟩
    · exact Or.inl (scanScope_some_mem scope p.2 p.1 h)
    · exact Or.inr ⟨k, hk, hname⟩
  · intro n
    rw [showDataframes_eq, mem_dictKeys_mergeDicts, resolveArgs_assigned]
    simp [dictKeys]

/-- Witness for C6 at scope `[("x", 5)]`, args `[5, 6]`. -/
theorem C6_resolution_total_witness :
    (resolveArgs [("x", 5)] [5, 6]).assigned.length = [5, 6].length ∧
      (dictKeys (showDataframes [("x", 5)] [5, 6])).Nodup :=
  ⟨(C6_resolution_total [("x", 5)] [5, 6]).1,
   (C6_resolution_total [("x", 5)] [5, 6]).2.2.1⟩

/-- C9, as stated, is refuted: the same object `5` passed twice
positionally with no identity match in the (empty) scope yields TWO
distinct untitled entries, not a single entry. -/
theorem C9_counterexample :
    showDataframes [] [5, 5] = [("untitled_1", 5), ("untitled_2", 5)] ∧
      ("untitled_1" : String) ≠ "untitled_2" :=
  ⟨rfl, by decide⟩

/-- C9 amended: occurrences of an object BOUND in the calling scope all
resolve to the same (last-match) name, so the mapping holds exactly one
entry for the object, provided that name is not an untitled name and no
other payload resolves to it; an object not bound in scope instead
yields one fresh untitled entry per occurrence. -/
theorem C9_amended (scope : Scope) (args : List Obj) (obj : Obj) (n : String)
    (hmatch : scanScope scope obj = some n)
    (hno : ∀ k : Nat, n ≠ untitledName k)
    (huniq : ∀ o ∈ args, scanScope scope o = some n → o = obj)
    (hmem : obj ∈ args) :
    dictLookup (showDataframes scope args) n = some obj ∧
      (showDataframes scope args).countP (fun p => p.2 == obj) = 1 := by
  have hD := showDataframes_eq scope args
  have fact1 : ∀ p ∈ assignedOf scope 1 args, p.2 = obj → p.1 = n := by
    intro p hp hpo
    obtain ⟨-, h2⟩ := assignedOf_mem scope args 1 p hp
    rcases h2 with h | ⟨hnone, -⟩
    · rw [hpo, hmatch] at h
      exact (Option.some_inj.mp h).symm
    · rw [hpo, hmatch] at hnone
      exact absurd hnone (by simp)
  have fact2 : ∀ p ∈ assignedOf scope 1 args, p.1 = n → p.2 = obj := by
    intro p hp hpn
    obtain ⟨hargs, h2⟩ := assignedOf_mem scope args 1 p hp
    rcases h2 with h | ⟨-, k, -, hname⟩
    · exact huniq p.2 hargs (hpn ▸ h)
    · exact absurd (hpn ▸ hname) (hno k)
  have fact3 : (n, obj) ∈ assignedOf scope 1 args :=
    assignedOf_mem_of_mem scope obj n hmatch args 1 hmem
  have hlookup : dictLookup (showDataframes scope args) n = some obj := by
    rw [hD, mergeDicts_lookup]
    rcases hfind : (assignedOf scope 1 args).reverse.find?
        (fun p : String × Obj => p.1 == n) with _ | q
    · exfalso
      rw [List.find?_eq_none] at hfind
      exact hfind (n, obj) (List.mem_reverse.mpr fact3) (by simp)
    · have hq0 := List.find?_some hfind
      have hq1 : q.1 = n := by simpa using hq0
      have hqA : q ∈ assignedOf scope 1 args :=
        List.mem_reverse.mp (List.mem_of_find?_eq_some hfind)
      have hq2 : q.2 = obj := fact2 q hqA hq1
      simp [hq2]
  refine ⟨hlookup, ?_⟩
  have hnodup : (dictKeys (showDataframes scope args)).Nodup :=
    resolveArgs_dataframes_nodup scope args
  have hmono : (showDataframes scope args).countP (fun p => p.2 == obj) ≤
      (showDataframes scope args).countP (fun p => p.1 == n) := by
    apply List.countP_mono_left
    intro p hp hpo
    have hpA : p ∈ assignedOf scope 1 args := by
      rcases mergeDicts_mem _ _ _ (hD ▸ hp) with h1 | h2
      · simp at h1
      · exact h2
    have := fact1 p hpA (by simpa using hpo)
    simp [this]
  have hkeycount : (showDataframes scope args).countP (fun p => p.1 == n) =
      (dictKeys (showDataframes scope args)).count n := by
    rw [dictKeys, List.count_eq_countP, List.countP_map]
    congr 1
  have hle1 : (dictKeys (showDataframes scope args)).count n ≤ 1 :=
    List.nodup_iff_count_le_one.mp hnodup n
  have hpos : 0 < (showDataframes scope args).countP (fun p => p.2 == obj) := by
    rw [List.countP_pos_iff]
    rw [dictLookup] at hlookup
    rcases hfind : (showDataframes scope args).find?
        (fun p : String × Obj => p.1 == n) with _ | q
    · rw [hfind] at hlookup; simp at hlookup
    · rw [hfind] at hlookup
      have hq2 : q.2 = obj := by simpa using hlookup
      exact ⟨q, List.mem_of_find?_eq_some hfind, by simp [hq2]⟩
  omega

/-- Witness for C9_amended at scope `[("x", 5)]`, args `[5, 5]`. -/
theorem C9_amended_witness :
    dictLookup (showDataframes [("x", 5)] [5, 5]) "x" = some 5 ∧
      (showDataframes [("x", 5)] [5, 5]).countP (fun p => p.2 == 5) = 1 :=
  C9_amended [("x", 5)] [5, 5] 5 "x" rfl
    (untitledName_ne_short "x" (by decide)) (by decide) (by decide)

/-! ### Lemmas about the Application Store -/

theorem findIdx?_cons_zero {α : Type} (p : α → Bool) (e : α) (rest : List α) :
    (e :: rest).findIdx? p =
      if p e then some 0 else (rest.findIdx? p).map (fun j => j + 1) := by
  by_cases hp : p e <;> simp [List.findIdx?_cons, hp, List.findIdx?_succ]

theorem findIdx?_key_mem (n : String) :
    ∀ (entries : List (String × DFEntry)) (i : Nat),
      entries.findIdx? (fun q => q.1 == n) = some i →
      n ∈ entries.map (fun q => q.1) := by
  intro entries i h
  by_contra hmem
  have : entries.findIdx? (fun q : String × DFEntry => q.1 == n) = none := by
    rw [List.findIdx?_eq_none_iff]
    intro q hq
    by_contra hqn
    have hq1 : q.1 = n := by
      have := Bool.not_eq_false _ |>.mp hqn
      simpa using this
    exact hmem (hq1 ▸ List.mem_map_of_mem (fun q : String × DFEntry => q.1) hq)
  rw [this] at h
  exact Option.noConfusion h

theorem eraseIdx_names_erase (n : String) :
    ∀ (entries : List (String × DFEntry)) (i : Nat),
      entries.findIdx? (fun q => q.1 == n) = some i →
      (entries.eraseIdx i).map (fun q => q.1) =
        (entries.map (fun q => q.1)).erase n := by
  intro entries
  induction entries with
  | nil => intro i h; simp at h
  | cons e rest ih =>
      intro i h
      rw [findIdx?_cons_zero] at h
      by_cases he : e.1 = n
      · rw [if_pos (by simp [he])] at h
        have hi : i = 0 := (Option.some_inj.mp h).symm
        subst hi
        rw [List.eraseIdx_cons_zero, List.map_cons, he, List.erase_cons_head]
      · rw [if_neg (by simp [he])] at h
        rcases hr : rest.findIdx? (fun q : String × DFEntry => q.1 == n) with _ | j
        · rw [hr] at h; simp at h
        · rw [hr] at h
          have hij : i = j + 1 := by simpa using h.symm
          subst hij
          rw [List.eraseIdx_cons_succ, List.map_cons, List.map_cons,
            List.erase_cons_tail (by simp [he]), ih j hr]

theorem findIdx?_prev_entry (n : String) :
    ∀ (entries : List (String × DFEntry)) (i : Nat),
      entries.findIdx? (fun q => q.1 == n) = some i → 0 < i →
      ∃ q, entries[i-1]? = some q ∧ q.1 ≠ n ∧ q ∈ entries.eraseIdx i := by
  intro entries
  induction entries with
  | nil => intro i h _; simp at h
  | cons e rest ih =>
      intro i h hpos
      rw [findIdx?_cons_zero] at h
      by_cases he : e.1 = n
      · rw [if_pos (by simp [he])] at h
        have hi : i = 0 := (Option.some_inj.mp h).symm
        omega
      · rw [if_neg (by simp [he])] at h
        rcases hr : rest.findIdx? (fun q : String × DFEntry => q.1 == n) with _ | j
        · rw [hr] at h; simp at h
        · rw [hr] at h
          have hij : i = j + 1 := by simpa using h.symm
          subst hij
          cases j with
          | zero =>
              refine ⟨e, by simp, he, ?_⟩
              rw [List.eraseIdx_cons_succ]
              exact List.mem_cons_self _ _
          | succ j' =>
              obtain ⟨q, hq1, hq2, hq3⟩ := ih (j' + 1) hr (Nat.succ_pos j')
              refine ⟨q, by simpa using hq1, hq2, ?_⟩
              rw [List.eraseIdx_cons_succ]
              exact List.mem_cons_of_mem _ hq3

theorem entries_any_key (entries : List (String × DFEntry)) (n : String) :
    entries.any (fun q => q.1 == n) = true ↔ n ∈ entries.map (fun q => q.1) := by
  rw [List.any_eq_true, List.mem_map]
  constructor
  · rintro ⟨q, hq, hqn⟩
    exact ⟨q, hq, by simpa using hqn⟩
  · rintro ⟨q, hq, hqn⟩
    exact ⟨q, hq, by simp [hqn]⟩

theorem addDF_names (s : Store) (p : Obj) (n : String) :
    storeNames (addDF s p n) =
      if s.entries.any (fun q => q.1 == n) then storeNames s
      else storeNames s ++ [n] := by
  rw [addDF]
  by_cases hany : s.entries.any (fun q => q.1 == n)
  · rw [if_pos hany, if_pos hany]
    simp only [storeNames, List.map_map]
    congr 1
    funext q
    by_cases hq : q.1 = n <;> simp [hq]
  · rw [if_neg hany, if_neg hany]
    simp [storeNames]

theorem removeDF_ok (s : Store) (n : String) (hmem : n ∈ storeNames s) :
    ∃ i,
      s.entries.findIdx? (fun q => q.1 == n) = some i ∧
      removeDF s n = .ok
        { entries := s.entries.eraseIdx i
          selected :=
            if s.selected = some n then
              if i = 0 then none else (s.entries[i-1]?).map (fun q => q.1)
            else s.selected } ∧
      (s.entries.eraseIdx i).map (fun q => q.1) = (storeNames s).erase n := by
  rcases hf : s.entries.findIdx? (fun q : String × DFEntry => q.1 == n) with _ | i
  · exfalso
    rw [List.findIdx?_eq_none_iff] at hf
    rw [storeNames, List.mem_map] at hmem
    obtain ⟨q, hq, hqn⟩ := hmem
    have := hf q hq
    simp [hqn] at this
  · exact ⟨i, rfl, by rw [removeDF, hf], eraseIdx_names_erase n s.entries i hf⟩

/-- C3, as stated, is refuted: for the store with entries
`a, b` (in that display order) and `a` selected, refreshing `a` with a
new payload re-appends `a` at the END of display order (`b, a`), and
the selection no longer points at `a`. -/
theorem C3_counterexample :
    storeNames (refreshName ⟨[("a", ⟨1, []⟩), ("b", ⟨2, []⟩)], some "a"⟩ "a" 3) =
        ["b", "a"] ∧
      (refreshName ⟨[("a", ⟨1, []⟩), ("b", ⟨2, []⟩)], some "a"⟩ "a" 3).selected =
        none ∧
      storeNames ⟨[("a", ⟨1, []⟩), ("b", ⟨2, []⟩)], some "a"⟩ = ["a", "b"] := by
  refine ⟨rfl, rfl, rfl⟩

/-- C3 amended (store modelled from the spec): `refresh` is a plain
remove followed by add, so the refreshed entry is re-appended at the END
of display order (its position is preserved only when it was already
last); its history is empty and its payload replaced immediately
afterwards; the selection still points at it afterwards when it was the
sole entry, and never does when the store held more than one entry. -/
theorem C3_amended (s : Store) (n : String) (p : Obj)
    (hnd : (storeNames s).Nodup) (hmem : n ∈ storeNames s) :
    storeNames (refreshName s n p) = (storeNames s).erase n ++ [n] ∧
      storeLookup (refreshName s n p) n = some ⟨p, []⟩ ∧
      (s.entries.length = 1 → (refreshName s n p).selected = some n) ∧
      (1 < s.entries.length → (refreshName s n p).selected ≠ some n) := by
  obtain ⟨i, hfi, hok, hnames2⟩ := removeDF_ok s n hmem
  have href : ∀ s2, removeDF s n = .ok s2 → refreshName s n p = addDF s2 p n := by
    intro s2 h
    rw [refreshName, h]
  have href' := href _ hok
  set s2 : Store :=
    { entries := s.entries.eraseIdx i
      selected :=
        if s.selected = some n then
          if i = 0 then none else (s.entries[i-1]?).map (fun q => q.1)
        else s.selected } with hs2
  have hnames2' : storeNames s2 = (storeNames s).erase n := hnames2
  have hnmem2 : n ∉ storeNames s2 := by
    rw [hnames2']
    exact List.Nodup.not_mem_erase hnd
  have hany2 : (s2.entries.any (fun q => q.1 == n)) = false := by
    rw [← Bool.not_eq_true, entries_any_key]
    exact hnmem2
  have hlen2 : s2.entries.length = s.entries.length - 1 := by
    have h1 : (storeNames s2).length = s2.entries.length := by
      rw [storeNames, List.length_map]
    have h2 : (storeNames s).length = s.entries.length := by
      rw [storeNames, List.length_map]
    rw [← h1, hnames2', List.length_erase_of_mem hmem, h2]
  refine ⟨?_, ?_, ?_, ?_⟩
  · rw [href', addDF_names, hany2]
    simp [hnames2']
  · rw [href', addDF, hany2]
    simp only [Bool.false_eq_true, if_false, storeLookup, List.find?_append]
    have hnone : s2.entries.find? (fun q : String × DFEntry => q.1 == n) = none := by
      rw [List.find?_eq_none]
      intro q hq hqn
      exact hnmem2 ((beq_iff_eq.mp hqn) ▸
        List.mem_map_of_mem (fun q : String × DFEntry => q.1) hq)
    simp [hnone, List.find?]
  · intro h1
    have hempty : s2.entries.isEmpty = true := by
      rw [List.isEmpty_iff, ← List.length_eq_zero]
      omega
    rw [href', addDF, hany2]
    simp [hempty]
  · intro hgt
    have hnotempty : s2.entries.isEmpty = false := by
      rcases he : s2.entries with _ | ⟨q, rest⟩
      · rw [he] at hlen2
        simp at hlen2
        omega
      · rfl
    have hselfinal : (refreshName s n p).selected = s2.selected := by
      rw [href', addDF, hany2]
      simp [hnotempty]
    rw [hselfinal]
    by_cases hsel : s.selected = some n
    · rw [hs2]
      simp only [hsel, if_true]
      by_cases hi0 : i = 0
      · simp [hi0]
      · rw [if_neg hi0]
        obtain ⟨q, hq1, hq2, -⟩ :=
          findIdx?_prev_entry n s.entries i hfi (Nat.pos_of_ne_zero hi0)
        rw [hq1]
        simp only [Option.map_some']
        intro hc
        exact hq2 (Option.some_inj.mp hc)
    · rw [hs2]
      simp only [hsel, if_false]
      exact hsel

/-- Witness for C3_amended at the two-entry store `a, b` with `a`
selected, refreshing `a`. -/
theorem C3_amended_witness :
    storeNames (refreshName ⟨[("a", ⟨1, []⟩), ("b", ⟨2, []⟩)], some "a"⟩ "a" 3) =
        (storeNames ⟨[("a", ⟨1, []⟩), ("b", ⟨2, []⟩)], some "a"⟩).erase "a" ++ ["a"] ∧
      storeLookup (refreshName ⟨[("a", ⟨1, []⟩), ("b", ⟨2, []⟩)], some "a"⟩ "a" 3) "a" =
        some ⟨3, []⟩ ∧
      (refreshName ⟨[("a", ⟨1, []⟩), ("b", ⟨2, []⟩)], some "a"⟩ "a" 3).selected ≠
        some "a" := by
  have h := C3_amended ⟨[("a", ⟨1, []⟩), ("b", ⟨2, []⟩)], some "a"⟩ "a" 3
    (by decide) (by decide)
  exact ⟨h.1, h.2.1, h.2.2.2 (by decide)⟩

theorem addDF_wf (s : Store) (p : Obj) (n : String)
    (hnd : (storeNames s).Nodup) (hinv : StoreInv s) :
    (storeNames (addDF s p n)).Nodup ∧ StoreInv (addDF s p n) := by
  have hnames := addDF_names s p n
  by_cases hany : s.entries.any (fun q => q.1 == n)
  · rw [if_pos hany] at hnames
    refine ⟨hnames ▸ hnd, ?_⟩
    intro m hm
    have hsel : (addDF s p n).selected = s.selected := by
      rw [addDF, if_pos hany]
    rw [hnames]
    exact hinv m (hsel ▸ hm)
  · rw [if_neg hany] at hnames
    have hnmem : n ∉ storeNames s := by
      intro hmemn
      exact hany ((entries_any_key s.entries n).mpr hmemn)
    constructor
    · rw [hnames, List.nodup_append]
      exact ⟨hnd, List.nodup_singleton n,
        fun a ha hab => hnmem ((List.mem_singleton.mp hab) ▸ ha)⟩
    · intro m hm
      have hsel : (addDF s p n).selected =
          if s.entries.isEmpty then some n else s.selected := by
        rw [addDF, if_neg hany]
      rw [hsel] at hm
      rw [hnames, List.mem_append]
      by_cases hemp : s.entries.isEmpty
      · rw [if_pos hemp] at hm
        right
        rw [List.mem_singleton]
        exact (Option.some_inj.mp hm).symm
      · rw [if_neg hemp] at hm
        exact Or.inl (hinv m hm)

theorem applyOp_wf (s : Store) (op : StoreOp)
    (hnd : (storeNames s).Nodup) (hinv : StoreInv s) :
    (storeNames (applyOp s op)).Nodup ∧ StoreInv (applyOp s op) := by
  cases op with
  | add p n => exact addDF_wf s p n hnd hinv
  | remove n =>
      rw [applyOp]
      rcases hf : s.entries.findIdx? (fun q : String × DFEntry => q.1 == n) with _ | i
      · rw [removeDF, hf]
        exact ⟨hnd, hinv⟩
      · rw [removeDF, hf]
        have hnames2 := eraseIdx_names_erase n s.entries i hf
        constructor
        · show ((s.entries.eraseIdx i).map (fun q => q.1)).Nodup
          rw [hnames2]
          exact List.Nodup.erase n hnd
        · intro m hm
          show m ∈ (s.entries.eraseIdx i).map (fun q => q.1)
          simp only at hm
          by_cases hsel : s.selected = some n
          · rw [if_pos hsel] at hm
            by_cases hi0 : i = 0
            · rw [if_pos hi0] at hm
              exact Option.noConfusion hm
            · rw [if_neg hi0] at hm
              obtain ⟨q, hq1, hq2, hq3⟩ :=
                findIdx?_prev_entry n s.entries i hf (Nat.pos_of_ne_zero hi0)
              rw [hq1] at hm
              simp only [Option.map_some'] at hm
              have hqm : q.1 = m := Option.some_inj.mp hm
              exact hqm ▸ List.mem_map_of_mem (fun q : String × DFEntry => q.1) hq3
          · rw [if_neg hsel] at hm
            have hmmem := hinv m hm
            have hmn : m ≠ n := by
              intro hc
              exact hsel (hc ▸ hm)
            rw [hnames2]
            exact (List.mem_erase_of_ne hmn).mpr hmmem
  | select n =>
      rw [applyOp, selectDF]
      by_cases hany : s.entries.any (fun q => q.1 == n)
      · rw [if_pos hany]
        refine ⟨hnd, ?_⟩
        intro m hm
        simp only at hm
        have hmn : m = n := (Option.some_inj.mp hm).symm
        subst hmn
        exact (entries_any_key s.entries m).mp hany
      · rw [if_neg hany]
        exact ⟨hnd, hinv⟩

theorem runOps_wf (ops : List StoreOp) :
    (storeNames (runOps ops)).Nodup ∧ StoreInv (runOps ops) := by
  rw [runOps]
  have main : ∀ (l : List StoreOp) (s : Store),
      (storeNames s).Nodup → StoreInv s →
      (storeNames (l.foldl applyOp s)).Nodup ∧ StoreInv (l.foldl applyOp s) := by
    intro l
    induction l with
    | nil => intro s h1 h2; exact ⟨h1, h2⟩
    | cons op rest ih =>
        intro s h1 h2
        obtain ⟨h1', h2'⟩ := applyOp_wf s op h1 h2
        exact ih _ h1' h2'
  refine main ops emptyStore (by simp [storeNames, emptyStore]) ?_
  intro m hm
  simp [emptyStore] at hm

/-- C4 (confirmed, store modelled from the spec): for every finite
sequence of add/remove/select operations executed from the empty store,
after each operation (operations that raise `NotFoundError` leave the
store untouched) the selected name is none or a key of the entries. -/
theorem C4_selected_invariant (ops : List StoreOp) (k : Nat) :
    StoreInv (runOps (ops.take k)) :=
  (runOps_wf (ops.take k)).2

/-- Witness for C4 on the sequence add a, select a, remove a. -/
theorem C4_selected_invariant_witness :
    StoreInv (runOps ([StoreOp.add 1 "a", StoreOp.select "a",
      StoreOp.remove "a"].take 3)) :=
  C4_selected_invariant [StoreOp.add 1 "a", StoreOp.select "a",
    StoreOp.remove "a"] 3

/-! ### Window construction, refs registry, theme switcher -/

/-- C7 (confirmed): constructing a window enters the Qt event loop
(blocking the caller until the UI closes) if and only if the block
setting is true after applying the caller-supplied settings over the
defaults; when it is false, the constructor finishes without the event
loop action. -/
theorem C7_block_setting (defaults : SettingsState) (settings : List SettingKV)
    (kwargs : List (String × Obj)) :
    (InitAction.execEventLoopAct ∈ (pandasGuiInit defaults settings kwargs).2) ↔
      (applySettings defaults settings).block = true := by
  by_cases hb : (applySettings defaults settings).block
  · simp [pandasGuiInit, hb]
  · simp [pandasGuiInit, hb]

/-- Witness for C7 with defaults having block false and the caller
setting block to true. -/
theorem C7_block_setting_witness :
    (InitAction.execEventLoopAct ∈
        (pandasGuiInit ⟨"light", "Fusion", false⟩ [SettingKV.block true] []).2) ↔
      (applySettings ⟨"light", "Fusion", false⟩ [SettingKV.block true]).block = true :=
  C7_block_setting ⟨"light", "Fusion", false⟩ [SettingKV.block true] []

theorem count_foldl_refStep (i : Nat) :
    ∀ (es : List RefEvent) (start : List Nat),
      (es.foldl refStep start).count i = es.foldl (netStep i) (start.count i) := by
  intro es
  induction es with
  | nil => intro start; simp
  | cons e rest ih =>
      intro start
      rw [List.foldl_cons, List.foldl_cons, ih]
      congr 1
      cases e with
      | construct j =>
          rw [refStep, netStep]
          by_cases hj : j = i
          · subst hj
            simp [List.count_append, List.count_singleton]
          · have hjb : (j == i) = false := by simp [hj]
            simp [hjb, List.count_append, List.count_singleton, hj]
      | closeEvt j =>
          rw [refStep, netStep]
          by_cases hj : j = i
          · subst hj
            simp [List.count_erase_self]
          · have hjb : (j == i) = false := by simp [hj]
            simp [hjb, List.count_erase_of_ne (Ne.symm hj)]

theorem netStep_foldl_filter (i : Nat) :
    ∀ (es : List RefEvent) (c : Nat),
      es.foldl (netStep i) c = (es.filter (touches i)).foldl (netStep i) c := by
  intro es
  induction es with
  | nil => intro c; simp
  | cons e rest ih =>
      intro c
      rw [List.foldl_cons, List.filter_cons]
      by_cases ht : touches i e
      · rw [if_pos ht, List.foldl_cons, ih]
      · have hstep : netStep i c e = c := by
          cases e with
          | construct j =>
              have : (j == i) = false := by simpa [touches] using ht
              simp [netStep, this]
          | closeEvt j =>
              have : (j == i) = false := by simpa [touches] using ht
              simp [netStep, this]
        rw [if_neg ht, hstep, ih]

/-- C8 (confirmed): every window instance is appended to `refs` exactly
once at construction and removed exactly once by its close event; for
any event sequence, an instance whose own events so far are just its
construction occurs exactly once in `refs` (so it is a member), and one
whose events are its construction followed by its close occurs zero
times (so it is not a member). -/
theorem C8_refs_registry (es : List RefEvent) (i : Nat) :
    (es.filter (touches i) = [RefEvent.construct i] →
      (runRefs es).count i = 1 ∧ i ∈ runRefs es) ∧
      (es.filter (touches i) = [RefEvent.construct i, RefEvent.closeEvt i] →
        (runRefs es).count i = 0 ∧ i ∉ runRefs es) := by
  have hcount : (runRefs es).count i =
      (es.filter (touches i)).foldl (netStep i) 0 := by
    rw [runRefs, count_foldl_refStep, List.count_nil, netStep_foldl_filter]
  constructor
  · intro hfil
    rw [hfil] at hcount
    have h1 : (runRefs es).count i = 1 := by
      rw [hcount]
      simp [netStep]
    exact ⟨h1, List.count_pos_iff.mp (by omega)⟩
  · intro hfil
    rw [hfil] at hcount
    have h0 : (runRefs es).count i = 0 := by
      rw [hcount]
      simp [netStep]
    refine ⟨h0, ?_⟩
    intro hmem
    have := List.count_pos_iff.mpr hmem
    omega

/-- Witness for C8 on the trace: construct window 0, construct window 1,
close window 0. -/
theorem C8_refs_registry_witness :
    ((runRefs [RefEvent.construct 0, RefEvent.construct 1,
        RefEvent.closeEvt 0]).count 0 = 0 ∧
      (0 : Nat) ∉ runRefs [RefEvent.construct 0, RefEvent.construct 1,
        RefEvent.closeEvt 0]) ∧
      (1 : Nat) ∈ runRefs [RefEvent.construct 0, RefEvent.construct 1,
        RefEvent.closeEvt 0] :=
  ⟨(C8_refs_registry [RefEvent.construct 0, RefEvent.construct 1,
      RefEvent.closeEvt 0] 0).2 (by decide),
   ((C8_refs_registry [RefEvent.construct 0, RefEvent.construct 1,
      RefEvent.closeEvt 0] 1).1 (by decide)).2⟩

/-- C10 (confirmed): `set_theme` with any name outside
classic/dark/light takes no branch of the if/elif chain and leaves both
the stylesheet and the stored theme setting exactly as they were. -/
theorem C10_set_theme_unknown (st : ThemeState) (name : String)
    (h1 : name ≠ "classic") (h2 : name ≠ "dark") (h3 : name ≠ "light") :
    set_theme st name = st := by
  rw [set_theme, if_neg h1, if_neg h2, if_neg h3]

/-- Witness for C10 at the unknown theme name "solarized". -/
theorem C10_set_theme_unknown_witness :
    set_theme ⟨"<sheet>", "dark"⟩ "solarized" = ⟨"<sheet>", "dark"⟩ :=
  C10_set_theme_unknown ⟨"<sheet>", "dark"⟩ "solarized"
    (by decide) (by decide) (by decide)

end PandasGuiVerif
